import Mathlib

/-!
Verification development for the rustaxa Wesolowski VDF.

Shallow embedding of the Rust sources:
  rust/crates/rustaxa-vdf/src/puzzle.rs    (RswPuzzle)
  rust/crates/rustaxa-vdf/src/hash.rs      (HashToPrime, compute_precision_bound)
  rust/crates/rustaxa-vdf/src/verifier.rs  (WesolowskiVerifier::verify)
  rust/libs/vdf/src/vdf.rs                 (WesolowskiVdf, Solution)
  rust/libs/vdf/src/prover.rs              (WesolowskiProver::prove, CancellationToken)

Conventions of the embedding:
* rug big integers (all nonnegative here) are `ℕ`; byte strings are `List ℕ`
  in big-endian order (`rug::integer::Order::MsfBe`).
* rug's `%` aborts the process on a zero modulus (GMP division by zero);
  constructors that can hit it return `Option`, `none` standing for the abort.
* The GMP random generator is deterministic in its seed; it is embedded as an
  abstract draw stream `g : ℕ → ℕ → ℕ` (seed ↦ call index ↦ raw draw), where
  `random_below m` on the i-th call returns `g seed i % m`.
* `is_probably_prime` is deterministic in (value, rounds); it is embedded as an
  abstract predicate `ipp : ℕ → ℕ → Bool` (rounds ↦ value ↦ verdict).
* The extended-precision Lambert-W float pipeline of `compute_precision_bound`
  is deterministic in `lambda`; it is embedded by its observable outcome
  (`FloatOutcome`), supplied as a function `fo : ℕ → FloatOutcome` of lambda.
* The cooperative cancellation token is embedded as `c : ℕ → Bool`, giving the
  answer of the i-th `is_cancelled()` poll performed by `prove`.
-/

namespace Rustaxa

/-- Big-endian unsigned decode of a byte string
(`rug::Integer::from_digits(bytes, Order::MsfBe)`). -/
def fromDigitsBE (bs : List ℕ) : ℕ := Nat.ofDigits 256 bs.reverse

/-- Fuel-driven big-endian digit expansion; `toDigitsAux fuel n` is the
minimal big-endian base-256 digit string of `n` provided `n ≤ fuel`. -/
def toDigitsAux : ℕ → ℕ → List ℕ
  | 0, _ => []
  | fuel + 1, n => if n = 0 then [] else toDigitsAux fuel (n / 256) ++ [n % 256]

/-- Minimal big-endian unsigned encode of a big integer
(`to_digits::<u8>(Order::MsfBe)`); the empty string for zero. -/
def toDigitsBE (n : ℕ) : List ℕ := toDigitsAux n n

/-- Fuel-driven bit length; `bitLenAux fuel n` is the bit length of `n`
provided `n ≤ fuel`. -/
def bitLenAux : ℕ → ℕ → ℕ
  | 0, _ => 0
  | fuel + 1, n => if n = 0 then 0 else bitLenAux fuel (n / 2) + 1

/-- GMP `significant_bits`: the bit length of a nonnegative integer, 0 for 0. -/
def significant_bits (n : ℕ) : ℕ := bitLenAux n n

/-- `RswPuzzle` (puzzle.rs): immutable RSW time-lock puzzle parameters. -/
structure RswPuzzle where
  time_bits : ℕ
  base : ℕ
  modulus : ℕ
  iterations : ℕ
  deriving DecidableEq

/-- `RswPuzzle::new(time_bits, input, modulus)` (puzzle.rs lines 10-22):
decode both byte strings big-endian, set `iterations = 1 << time_bits` and
`base = input mod modulus`.  The reduction `base % &modulus` is a GMP division
by zero when the decoded modulus is zero, aborting the process; that abort is
modelled as `none`. -/
def RswPuzzle.new (time_bits : ℕ) (input modulus : List ℕ) : Option RswPuzzle :=
  let base := fromDigitsBE input
  let m := fromDigitsBE modulus
  let iterations := 2 ^ time_bits
  if m = 0 then none
  else some ⟨time_bits, base % m, m, iterations⟩

/-- Observable outcome of the extended-precision Lambert-W float pipeline in
`compute_precision_bound` (hash.rs lines 130-256).  The MPFR computation is
deterministic in `lambda`; the integer-returning tail of the function branches
only on these observations:
* `wFiniteNonzero`: `w.is_finite() && !w.is_zero()` after the iteration;
* `scaledBits`: `some s` when `|w|.to_f64()` is finite and positive, with
  `s = ((f64 * 1.1).ceil()) as u32`; `none` otherwise;
* `intBits`: the result of `|w|.to_integer()` followed by `.to_u32()`. -/
structure FloatOutcome where
  wFiniteNonzero : Bool
  scaledBits : Option ℕ
  intBits : Option ℕ

/-- `compute_precision_bound` (hash.rs lines 130-256), the integer tail after
the float pipeline: if `w` is finite and nonzero, try the f64 route (accept a
scaled bit count inside `[64, 8192]`); otherwise fall back to the integer
conversion of `|w|` clamped to `[64, 8192]`; the final fallback is `2^64`. -/
def compute_precision_bound (o : FloatOutcome) : ℕ :=
  if o.wFiniteNonzero then
    match o.scaledBits with
    | some s =>
      if 64 ≤ s ∧ s ≤ 8192 then 2 ^ s
      else
        match o.intBits with
        | some b => 2 ^ max 64 (min b 8192)
        | none => 2 ^ 64
    | none =>
      match o.intBits with
      | some b => 2 ^ max 64 (min b 8192)
      | none => 2 ^ 64
  else 2 ^ 64

/-- `HashToPrime` (hash.rs): stores the density-adjusted search ceiling
`max_int = B(lambda) / 6`. -/
structure HashToPrime where
  max_int : ℕ
  deriving DecidableEq

/-- `HashToPrime::new(lambda)` (hash.rs lines 12-43): take the cached precision
bound when present, otherwise compute it; divide by 6.  The process-wide cache
is embedded as `cache : ℕ → Option ℕ`; the best-effort write-back does not
affect the returned value and is not modelled. -/
def HashToPrime.new (fo : ℕ → FloatOutcome) (cache : ℕ → Option ℕ)
    (lambda : ℕ) : HashToPrime :=
  let max_int :=
    match cache lambda with
    | some v => v
    | none => compute_precision_bound (fo lambda)
  ⟨max_int / 6⟩

/-- A cache state is well formed when every entry is the value the program
would have written for that lambda (entries are only ever written from
`compute_precision_bound`). -/
def CacheWF (fo : ℕ → FloatOutcome) (cache : ℕ → Option ℕ) : Prop :=
  ∀ l v, cache l = some v → v = compute_precision_bound (fo l)

/-- Iteration cap of the prime search (`MAX_ITER`, hash.rs line 55). -/
def MAX_ITER : ℕ := 10000

/-- Miller-Rabin round count (`MAX_MILLER_RABIN`, hash.rs line 56). -/
def MAX_MILLER_RABIN : ℕ := 30

/-- The practical draw ceiling of `hash_to_prime` (hash.rs lines 61-67):
`practical_bits = min(max_int.significant_bits(), 32)`, then
`2^practical_bits / 6` (computed through a `u64` shift when
`practical_bits ≤ 64`, hence the inner `min practical_bits 63`). -/
def practical_max (max_int : ℕ) : ℕ :=
  let practical_bits := min (significant_bits max_int) 32
  if practical_bits ≤ 64 then 2 ^ min practical_bits 63 / 6
  else 2 ^ practical_bits / 6

/-- The seed of the deterministic generator (hash.rs lines 71-78):
`1` for a zero input, otherwise `input mod (2^64 - 59)`. -/
def hashSeed (input : ℕ) : ℕ :=
  if input = 0 then 1 else input % (2 ^ 64 - 59)

/-- One raw draw of `random_below(pm)` from the stream `g` at call index
`idx` (hash.rs line 95). -/
def rawDraw (g : ℕ → ℕ) (pm idx : ℕ) : ℕ := g idx % pm

/-- The prime-search loop of `hash_to_prime` (hash.rs lines 93-115).
`fuel` is the number of iterations still allowed, `count` the iterations
already performed, `idx` the next draw-stream index (each iteration consumes a
candidate draw and a sign draw).  Returns the accepted candidate (if any) and
the final value of `count`.  A raw draw of `0` makes the transformed candidate
`6*0 ± 1 < 2`, the retry branch; otherwise the candidate is `6*raw + sign`
with `sign = 2*sign_bit - 1 ∈ {-1, +1}`, and it is accepted when the
probabilistic primality test succeeds. -/
def hashSearch (ipp : ℕ → Bool) (g : ℕ → ℕ) (pm : ℕ) :
    ℕ → ℕ → ℕ → Option ℕ × ℕ
  | 0, count, _ => (none, count)
  | fuel + 1, count, idx =>
    let raw := rawDraw g pm idx
    let sign_bit := g (idx + 1) % 2
    if raw = 0 then hashSearch ipp g pm fuel (count + 1) (idx + 2)
    else
      let candidate := 6 * raw + 2 * sign_bit - 1
      if ipp candidate then (some candidate, count + 1)
      else hashSearch ipp g pm fuel (count + 1) (idx + 2)

/-- `HashToPrime::hash_to_prime` (hash.rs lines 51-125): seed the generator
from the input, run the search loop for at most `MAX_ITER` iterations, and
fail (`Err`, modelled `none`) exactly when the loop's final `count` equals
`MAX_ITER`. -/
def hash_to_prime (ipp : ℕ → ℕ → Bool) (g : ℕ → ℕ → ℕ) (h : HashToPrime)
    (input : ℕ) : Option ℕ :=
  let pm := practical_max h.max_int
  let res := hashSearch (ipp MAX_MILLER_RABIN) (g (hashSeed input)) pm MAX_ITER 0 0
  if res.2 = MAX_ITER then none else res.1

/-- `WesolowskiVdf` (vdf.rs): one puzzle and one hash-to-prime instance. -/
structure WesolowskiVdf where
  puzzle : RswPuzzle
  hash : HashToPrime
  deriving DecidableEq

/-- `WesolowskiVdf::new(lambda, time_bits, input, modulus)` (vdf.rs lines
14-19); `none` models the process abort propagated from `RswPuzzle::new` on a
zero modulus. -/
def WesolowskiVdf.new (fo : ℕ → FloatOutcome) (cache : ℕ → Option ℕ)
    (lambda time_bits : ℕ) (input modulus : List ℕ) : Option WesolowskiVdf :=
  match RswPuzzle.new time_bits input modulus with
  | none => none
  | some puzzle => some ⟨puzzle, HashToPrime.new fo cache lambda⟩

/-- Accessor `base()` (vdf.rs). -/
def WesolowskiVdf.base (v : WesolowskiVdf) : ℕ := v.puzzle.base

/-- Accessor `modulus()` (vdf.rs). -/
def WesolowskiVdf.modulus (v : WesolowskiVdf) : ℕ := v.puzzle.modulus

/-- Accessor `iterations()` (vdf.rs). -/
def WesolowskiVdf.iterations (v : WesolowskiVdf) : ℕ := v.puzzle.iterations

/-- `WesolowskiVdf::hash_to_prime` forwarded to the owned `HashToPrime`
(vdf.rs lines 32-34). -/
def WesolowskiVdf.hash_to_prime (ipp : ℕ → ℕ → Bool) (g : ℕ → ℕ → ℕ)
    (v : WesolowskiVdf) (input : ℕ) : Option ℕ :=
  Rustaxa.hash_to_prime ipp g v.hash input

/-- `Solution` (vdf.rs): `first` is the proof `pi`, `second` the output `y`,
both minimal big-endian byte strings. -/
structure Solution where
  first : List ℕ
  second : List ℕ
  deriving DecidableEq

/-- The empty solution, the cancellation / failure result of `prove`. -/
def Solution.empty : Solution := ⟨[], []⟩

/-- `WesolowskiVerifier::verify` (verifier.rs lines 26-79): decode `pi` and
`y = sigma`, reject if either is zero or not below `N`; recompute the
challenge prime from `x * 2^significant_bits(N) + sigma`, rejecting on hashing
failure; accept iff `x^(2^T mod p) * pi^p mod N` equals `sigma`.  The embedded
function is total: every input yields a boolean. -/
def verify (ipp : ℕ → ℕ → Bool) (g : ℕ → ℕ → ℕ) (vdf : WesolowskiVdf)
    (solution : Solution) : Bool :=
  let N := vdf.modulus
  let x := vdf.base
  let T := vdf.iterations
  let pi := fromDigitsBE solution.first
  let sigma := fromDigitsBE solution.second
  if sigma = 0 ∨ pi = 0 ∨ N ≤ sigma ∨ N ≤ pi then false
  else
    match vdf.hash_to_prime ipp g (x * 2 ^ significant_bits N + sigma) with
    | none => false
    | some p => decide (sigma = x ^ (2 ^ T % p) % N * (pi ^ p % N) % N)

/-- Cancellation polling interval of the native-width prover loop
(prover.rs line 42): `(T / 100).clamp(1, 10000)`. -/
def check_interval (T : ℕ) : ℕ := max 1 (min (T / 100) 10000)

/-- Polling interval of the big-integer fallback loop
(`LARGE_CHECK_INTERVAL`, prover.rs line 127). -/
def LARGE_CHECK_INTERVAL : ℕ := 100000

/-- The repeated-squaring loop of `prove` (prover.rs lines 44-55).  `fuel`
counts the remaining squarings, `i` the 1-based step number, `y` the
accumulator and `k` the index of the next cancellation poll.  At a step whose
number is a multiple of the polling interval `ci` the token is polled before
squaring; a positive poll aborts (`none`). -/
def squareSteps (c : ℕ → Bool) (ci N : ℕ) :
    ℕ → ℕ → ℕ → ℕ → Option (ℕ × ℕ)
  | 0, _, y, k => some (y, k)
  | fuel + 1, i, y, k =>
    if i % ci = 0 then
      if c k then none
      else squareSteps c ci N fuel (i + 1) (y ^ 2 % N) (k + 1)
    else squareSteps c ci N fuel (i + 1) (y ^ 2 % N) k

/-- One iteration of the proof-accumulation loop (prover.rs lines 89-100) on
the state `(r, pi)`: square `pi`, double `r`, and on overflow `r ≥ p` subtract
`p` and multiply `pi` by the base. -/
def piBody (N x p : ℕ) (s : ℕ × ℕ) : ℕ × ℕ :=
  let pi := s.2 ^ 2 % N
  let r := 2 * s.1
  if p ≤ r then (r - p, pi * x % N) else (r, pi)

/-- The proof-accumulation loop of `prove` (prover.rs lines 80-101), with the
same polling discipline as `squareSteps`; returns the final `pi` and poll
index. -/
def piSteps (c : ℕ → Bool) (ci N x p : ℕ) :
    ℕ → ℕ → ℕ × ℕ → ℕ → Option (ℕ × ℕ)
  | 0, _, s, k => some (s.2, k)
  | fuel + 1, i, s, k =>
    if i % ci = 0 then
      if c k then none
      else piSteps c ci N x p fuel (i + 1) (piBody N x p s) (k + 1)
    else piSteps c ci N x p fuel (i + 1) (piBody N x p s) k

/-- Body shared by `prove` and `prove_large_iterations` (prover.rs lines
22-112 and 115-207), parameterized by the polling interval `ci`: run `T`
squarings from the base, hash `x * 2^significant_bits(N) + y` to the challenge
prime, run the `T`-step proof accumulation from `r = 1, pi = 1`, and serialize
`(pi, y)`.  A cancelled poll or a hashing failure yields the empty solution. -/
def proveWith (ipp : ℕ → ℕ → Bool) (g : ℕ → ℕ → ℕ) (vdf : WesolowskiVdf)
    (c : ℕ → Bool) (ci : ℕ) : Solution :=
  let N := vdf.modulus
  let x := vdf.base
  let T := vdf.iterations
  match squareSteps c ci N T 1 x 0 with
  | none => Solution.empty
  | some (y, k) =>
    match vdf.hash_to_prime ipp g (x * 2 ^ significant_bits N + y) with
    | none => Solution.empty
    | some p =>
      match piSteps c ci N x p T 1 (1, 1) k with
      | none => Solution.empty
      | some (pi, _) => ⟨toDigitsBE pi, toDigitsBE y⟩

/-- `WesolowskiProver::prove` (prover.rs lines 22-112): when `T` fits the
native `u64` width the polling interval is `check_interval T`; otherwise the
big-integer fallback `prove_large_iterations` runs the same computation with
the fixed `LARGE_CHECK_INTERVAL` cadence. -/
def prove (ipp : ℕ → ℕ → Bool) (g : ℕ → ℕ → ℕ) (vdf : WesolowskiVdf)
    (c : ℕ → Bool) : Solution :=
  if vdf.iterations < 2 ^ 64 then
    proveWith ipp g vdf c (check_interval vdf.iterations)
  else
    proveWith ipp g vdf c LARGE_CHECK_INTERVAL

/-- Number of polled step numbers in the window `[i, i + fuel)`: the count of
multiples of `ci` among them. -/
def mulCount (ci : ℕ) : ℕ → ℕ → ℕ
  | _, 0 => 0
  | i, fuel + 1 => (if i % ci = 0 then 1 else 0) + mulCount ci (i + 1) fuel

/-! ### Concrete environments used by witnesses and counterexamples -/

/-- A float-pipeline outcome whose Lambert-W result is non-finite: the
precision bound degrades to the minimum `2^64`. -/
def foMin : ℕ → FloatOutcome := fun _ => ⟨false, none, none⟩

/-- The empty precision-bound cache. -/
def cacheEmpty : ℕ → Option ℕ := fun _ => none

/-- A fully populated cache holding the minimum bound for every lambda
(well formed with respect to `foMin`). -/
def cacheMin : ℕ → Option ℕ := fun _ => some (2 ^ 64)

/-- A concrete primality verdict: exactly the value 5 counts as a probable
prime.  Sufficient for runs whose only tested candidate is 5. -/
def ippFive : ℕ → ℕ → Bool := fun _ n => n == 5

/-- A draw stream whose first draw is 1 and whose later draws are 0: the
first candidate becomes `6*1 - 1 = 5` and is accepted immediately. -/
def gFive : ℕ → ℕ → ℕ := fun _ i => if i = 0 then 1 else 0

/-- A draw stream that yields 0 (candidate `6*0 ± 1 < 2`, the retry branch)
on every iteration except the 10000th, whose candidate becomes
`6*1 - 1 = 5`: the accepting draw happens exactly when the iteration cap is
reached. -/
def gLate : ℕ → ℕ → ℕ := fun _ i => if i = 19998 then 1 else 0

/-- The VDF instance of the integration scenario: `lambda = 1500`,
`time_bits = 2`, `input = [0x02]`, `modulus = [0x01, 0x01]` (N = 257),
built with `foMin`: base 2, modulus 257, 4 iterations, bound `2^64 / 6`. -/
def vdfA : WesolowskiVdf := ⟨⟨2, 2, 257, 4⟩, ⟨2 ^ 64 / 6⟩⟩

/-- The VDF instance with an empty input (`base = 0`) and modulus `[0x02]`:
`lambda = 1500`, `time_bits = 2`, built with `foMin`. -/
def vdfC1 : WesolowskiVdf := ⟨⟨2, 0, 2, 4⟩, ⟨2 ^ 64 / 6⟩⟩

/-! ### Helper lemmas -/

theorem fromDigits_toDigitsAux :
    ∀ fuel n, n ≤ fuel → Nat.ofDigits 256 (toDigitsAux fuel n).reverse = n := by
  intro fuel
  induction fuel with
  | zero =>
    intro n hn
    have hn0 : n = 0 := by omega
    subst hn0
    simp [toDigitsAux, Nat.ofDigits]
  | succ fuel ih =>
    intro n hn
    by_cases hn0 : n = 0
    · subst hn0
      simp [toDigitsAux, Nat.ofDigits]
    · simp only [toDigitsAux, if_neg hn0, List.reverse_append, List.reverse_singleton]
      show Nat.ofDigits 256 (n % 256 :: (toDigitsAux fuel (n / 256)).reverse) = n
      rw [Nat.ofDigits_cons]
      have hdiv : n / 256 ≤ fuel := by
        have h1 : n / 256 < n := Nat.div_lt_self (by omega) (by omega)
        omega
      rw [ih (n / 256) hdiv]
      omega

theorem fromDigits_toDigits (n : ℕ) : fromDigitsBE (toDigitsBE n) = n :=
  fromDigits_toDigitsAux n n le_rfl

theorem bitLenAux_lt (b : ℕ) :
    ∀ fuel n, 2 ^ b ≤ n → n ≤ fuel → b < bitLenAux fuel n := by
  induction b with
  | zero =>
    intro fuel n h1 h2
    cases fuel with
    | zero => simp at h1 h2; omega
    | succ f =>
      simp only [bitLenAux]
      rw [if_neg (by simp at h1; omega)]
      omega
  | succ b ih =>
    intro fuel n h1 h2
    have h2n : 2 ≤ n := by
      have : 2 ≤ 2 ^ (b + 1) := by
        calc 2 = 2 ^ 1 := (pow_one 2).symm
        _ ≤ 2 ^ (b + 1) := Nat.pow_le_pow_right (by omega) (by omega)
      omega
    cases fuel with
    | zero => omega
    | succ f =>
      simp only [bitLenAux]
      rw [if_neg (by omega)]
      have hd : 2 ^ b ≤ n / 2 := by
        rw [Nat.le_div_iff_mul_le (by omega : 0 < 2)]
        calc 2 ^ b * 2 = 2 ^ (b + 1) := (pow_succ 2 b).symm
        _ ≤ n := h1
      have hf : n / 2 ≤ f := by
        have := Nat.div_lt_self (by omega : 0 < n) (by omega : 1 < 2)
        omega
      exact Nat.succ_lt_succ (ih f (n / 2) hd hf)

theorem significant_bits_lower {b n : ℕ} (h : 2 ^ b ≤ n) :
    b < significant_bits n :=
  bitLenAux_lt b n n h le_rfl

theorem compute_precision_bound_shape (o : FloatOutcome) :
    ∃ k, 64 ≤ k ∧ k ≤ 8192 ∧ compute_precision_bound o = 2 ^ k := by
  obtain ⟨w, sb, ib⟩ := o
  cases w with
  | false => exact ⟨64, by omega, by omega, rfl⟩
  | true =>
    cases sb with
    | none =>
      cases ib with
      | none => exact ⟨64, by omega, by omega, rfl⟩
      | some b =>
        refine ⟨max 64 (min b 8192), le_max_left _ _, ?_, rfl⟩
        exact max_le (by omega) (le_trans (min_le_right _ _) (by omega))
    | some s =>
      by_cases hs : 64 ≤ s ∧ s ≤ 8192
      · refine ⟨s, hs.1, hs.2, ?_⟩
        simp [compute_precision_bound, if_pos hs]
      · cases ib with
        | none =>
          refine ⟨64, by omega, by omega, ?_⟩
          simp [compute_precision_bound, if_neg hs]
        | some b =>
          refine ⟨max 64 (min b 8192), le_max_left _ _, ?_, ?_⟩
          · exact max_le (by omega) (le_trans (min_le_right _ _) (by omega))
          · simp [compute_precision_bound, if_neg hs]

theorem hashSearch_some (ipp : ℕ → Bool) (g : ℕ → ℕ) (pm : ℕ) :
    ∀ fuel count idx p cnt,
      hashSearch ipp g pm fuel count idx = (some p, cnt) →
      (p % 6 = 1 ∨ p % 6 = 5) ∧ ipp p = true ∧ 5 ≤ p := by
  intro fuel
  induction fuel with
  | zero => intro count idx p cnt h; simp [hashSearch] at h
  | succ fuel ih =>
    intro count idx p cnt h
    simp only [hashSearch] at h
    by_cases hraw : rawDraw g pm idx = 0
    · rw [if_pos hraw] at h
      exact ih (count + 1) (idx + 2) p cnt h
    · rw [if_neg hraw] at h
      by_cases hp : ipp (6 * rawDraw g pm idx + 2 * (g (idx + 1) % 2) - 1) = true
      · rw [if_pos hp] at h
        have hpe : 6 * rawDraw g pm idx + 2 * (g (idx + 1) % 2) - 1 = p := by
          have := congrArg Prod.fst h
          simpa using this
        have hsb : g (idx + 1) % 2 < 2 := Nat.mod_lt _ (by omega)
        refine ⟨?_, hpe ▸ hp, ?_⟩ <;> omega
      · rw [if_neg hp] at h
        exact ih (count + 1) (idx + 2) p cnt h

theorem hash_to_prime_some (ipp : ℕ → ℕ → Bool) (g : ℕ → ℕ → ℕ)
    (h : HashToPrime) (input p : ℕ)
    (he : hash_to_prime ipp g h input = some p) :
    (p % 6 = 1 ∨ p % 6 = 5) ∧ ipp MAX_MILLER_RABIN p = true ∧ 5 ≤ p := by
  simp only [hash_to_prime] at he
  by_cases hc :
      (hashSearch (ipp MAX_MILLER_RABIN) (g (hashSeed input))
        (practical_max h.max_int) MAX_ITER 0 0).2 = MAX_ITER
  · rw [if_pos hc] at he; exact absurd he (by simp)
  · rw [if_neg hc] at he
    exact hashSearch_some _ _ _ MAX_ITER 0 0 p _ (Prod.ext he rfl)

theorem mulCount_peel (ci : ℕ) : ∀ fuel i,
    mulCount ci i (fuel + 1) =
      mulCount ci i fuel + (if (i + fuel) % ci = 0 then 1 else 0) := by
  intro fuel
  induction fuel with
  | zero => intro i; simp [mulCount]
  | succ fuel ih =>
    intro i
    have h1 : mulCount ci i (fuel + 1 + 1) =
        (if i % ci = 0 then 1 else 0) + mulCount ci (i + 1) (fuel + 1) := rfl
    have h2 : mulCount ci i (fuel + 1) =
        (if i % ci = 0 then 1 else 0) + mulCount ci (i + 1) fuel := rfl
    rw [h1, h2, ih (i + 1)]
    have h3 : i + 1 + fuel = i + (fuel + 1) := by omega
    rw [h3]
    omega

theorem mulCount_base (ci : ℕ) : ∀ n, mulCount ci 1 n = n / ci := by
  intro n
  induction n with
  | zero => simp [mulCount]
  | succ n ih =>
    rw [mulCount_peel, ih, Nat.succ_div]
    have he : (1 + n) % ci = 0 ↔ ci ∣ n + 1 := by
      rw [Nat.add_comm 1 n]
      exact Nat.dvd_iff_mod_eq_zero.symm
    by_cases hd : ci ∣ n + 1
    · rw [if_pos (he.mpr hd), if_pos hd]
    · rw [if_neg (fun h => hd (he.mp h)), if_neg hd]

theorem squareSteps_window (c : ℕ → Bool) (ci N : ℕ) :
    ∀ fuel i y k,
      (∀ j, j < mulCount ci i fuel → c (k + j) = false) →
      squareSteps c ci N fuel i y k =
        some ((fun z => z ^ 2 % N)^[fuel] y, k + mulCount ci i fuel) := by
  intro fuel
  induction fuel with
  | zero => intro i y k _; simp [squareSteps, mulCount]
  | succ fuel ih =>
    intro i y k hc
    simp only [squareSteps]
    by_cases hi : i % ci = 0
    · have hmc : mulCount ci i (fuel + 1) = 1 + mulCount ci (i + 1) fuel := by
        simp [mulCount, hi]
      have hc0 : c k = false := by
        have := hc 0 (by omega)
        simpa using this
      rw [if_pos hi, hc0]
      simp only [Bool.false_eq_true, if_false]
      rw [ih (i + 1) (y ^ 2 % N) (k + 1)
        (fun j hj => by
          have := hc (j + 1) (by omega)
          have hidx : k + (j + 1) = k + 1 + j := by omega
          rwa [hidx] at this)]
      rw [Function.iterate_succ_apply]
      have hidx2 : k + 1 + mulCount ci (i + 1) fuel = k + mulCount ci i (fuel + 1) := by
        omega
      rw [hidx2]
    · have hmc : mulCount ci i (fuel + 1) = mulCount ci (i + 1) fuel := by
        simp [mulCount, hi]
      rw [if_neg hi]
      rw [ih (i + 1) (y ^ 2 % N) k (fun j hj => hc j (by omega))]
      rw [Function.iterate_succ_apply, hmc]

theorem squareSteps_shape (c : ℕ → Bool) (ci N : ℕ) :
    ∀ fuel i y k,
      squareSteps c ci N fuel i y k = none ∨
        ∃ k', squareSteps c ci N fuel i y k =
          some ((fun z => z ^ 2 % N)^[fuel] y, k') := by
  intro fuel
  induction fuel with
  | zero => intro i y k; exact Or.inr ⟨k, by simp [squareSteps]⟩
  | succ fuel ih =>
    intro i y k
    simp only [squareSteps]
    by_cases hi : i % ci = 0
    · rw [if_pos hi]
      by_cases hck : c k = true
      · rw [hck]; exact Or.inl (by simp)
      · rw [Bool.not_eq_true] at hck
        rw [hck]
        simp only [Bool.false_eq_true, if_false]
        rcases ih (i + 1) (y ^ 2 % N) (k + 1) with h | ⟨k', h⟩
        · exact Or.inl h
        · exact Or.inr ⟨k', by rw [h, Function.iterate_succ_apply]⟩
    · rw [if_neg hi]
      rcases ih (i + 1) (y ^ 2 % N) k with h | ⟨k', h⟩
      · exact Or.inl h
      · exact Or.inr ⟨k', by rw [h, Function.iterate_succ_apply]⟩

theorem squareSteps_allTrue (c : ℕ → Bool) (ci N : ℕ) (hc : ∀ k, c k = true) :
    ∀ fuel i y k m, i ≤ m → m < i + fuel → m % ci = 0 →
      squareSteps c ci N fuel i y k = none := by
  intro fuel
  induction fuel with
  | zero => intro i y k m h1 h2 _; omega
  | succ fuel ih =>
    intro i y k m h1 h2 h3
    simp only [squareSteps]
    by_cases hi : i % ci = 0
    · rw [if_pos hi, hc k]; simp
    · have him : i ≠ m := fun h => hi (h ▸ h3)
      rw [if_neg hi]
      exact ih (i + 1) (y ^ 2 % N) k m (by omega) (by omega) h3

theorem squareSteps_lastTrue (c : ℕ → Bool) (ci N : ℕ) :
    ∀ fuel i y k, 1 ≤ mulCount ci i fuel →
      c (k + mulCount ci i fuel - 1) = true →
      squareSteps c ci N fuel i y k = none := by
  intro fuel
  induction fuel with
  | zero => intro i y k h1 _; simp [mulCount] at h1
  | succ fuel ih =>
    intro i y k h1 h2
    simp only [squareSteps]
    by_cases hi : i % ci = 0
    · have hmc : mulCount ci i (fuel + 1) = 1 + mulCount ci (i + 1) fuel := by
        simp [mulCount, hi]
      rw [if_pos hi]
      by_cases hck : c k = true
      · rw [hck]; simp
      · rw [Bool.not_eq_true] at hck
        rw [hck]
        simp only [Bool.false_eq_true, if_false]
        have hmc1 : 1 ≤ mulCount ci (i + 1) fuel := by
          by_contra hcon
          have h0 : mulCount ci (i + 1) fuel = 0 := by omega
          rw [hmc, h0] at h2
          have : c k = true := by
            have he : k + (1 + 0) - 1 = k := by omega
            rwa [he] at h2
          rw [this] at hck
          exact Bool.noConfusion hck
        refine ih (i + 1) (y ^ 2 % N) (k + 1) hmc1 ?_
        have he : k + 1 + mulCount ci (i + 1) fuel - 1 =
            k + mulCount ci i (fuel + 1) - 1 := by omega
        rw [he]
        exact h2
    · have hmc : mulCount ci i (fuel + 1) = mulCount ci (i + 1) fuel := by
        simp [mulCount, hi]
      rw [if_neg hi]
      exact ih (i + 1) (y ^ 2 % N) k (hmc ▸ h1) (hmc ▸ h2)

theorem piSteps_lastTrue (c : ℕ → Bool) (ci N x p : ℕ) :
    ∀ fuel i s k, 1 ≤ mulCount ci i fuel →
      c (k + mulCount ci i fuel - 1) = true →
      piSteps c ci N x p fuel i s k = none := by
  intro fuel
  induction fuel with
  | zero => intro i s k h1 _; simp [mulCount] at h1
  | succ fuel ih =>
    intro i s k h1 h2
    simp only [piSteps]
    by_cases hi : i % ci = 0
    · have hmc : mulCount ci i (fuel + 1) = 1 + mulCount ci (i + 1) fuel := by
        simp [mulCount, hi]
      rw [if_pos hi]
      by_cases hck : c k = true
      · rw [hck]; simp
      · rw [Bool.not_eq_true] at hck
        rw [hck]
        simp only [Bool.false_eq_true, if_false]
        have hmc1 : 1 ≤ mulCount ci (i + 1) fuel := by
          by_contra hcon
          have h0 : mulCount ci (i + 1) fuel = 0 := by omega
          rw [hmc, h0] at h2
          have : c k = true := by
            have he : k + (1 + 0) - 1 = k := by omega
            rwa [he] at h2
          rw [this] at hck
          exact Bool.noConfusion hck
        refine ih (i + 1) (piBody N x p s) (k + 1) hmc1 ?_
        have he : k + 1 + mulCount ci (i + 1) fuel - 1 =
            k + mulCount ci i (fuel + 1) - 1 := by omega
        rw [he]
        exact h2
    · have hmc : mulCount ci i (fuel + 1) = mulCount ci (i + 1) fuel := by
        simp [mulCount, hi]
      rw [if_neg hi]
      exact ih (i + 1) (piBody N x p s) k (hmc ▸ h1) (hmc ▸ h2)

theorem piSteps_window (c : ℕ → Bool) (ci N x p : ℕ) :
    ∀ fuel i s k,
      (∀ j, j < mulCount ci i fuel → c (k + j) = false) →
      piSteps c ci N x p fuel i s k =
        some (((piBody N x p)^[fuel] s).2, k + mulCount ci i fuel) := by
  intro fuel
  induction fuel with
  | zero => intro i s k _; simp [piSteps, mulCount]
  | succ fuel ih =>
    intro i s k hc
    simp only [piSteps]
    by_cases hi : i % ci = 0
    · have hmc : mulCount ci i (fuel + 1) = 1 + mulCount ci (i + 1) fuel := by
        simp [mulCount, hi]
      have hc0 : c k = false := by
        have := hc 0 (by omega)
        simpa using this
      rw [if_pos hi, hc0]
      simp only [Bool.false_eq_true, if_false]
      rw [ih (i + 1) (piBody N x p s) (k + 1)
        (fun j hj => by
          have := hc (j + 1) (by omega)
          have hidx : k + (j + 1) = k + 1 + j := by omega
          rwa [hidx] at this)]
      rw [Function.iterate_succ_apply]
      have hidx2 : k + 1 + mulCount ci (i + 1) fuel = k + mulCount ci i (fuel + 1) := by
        omega
      rw [hidx2]
    · have hmc : mulCount ci i (fuel + 1) = mulCount ci (i + 1) fuel := by
        simp [mulCount, hi]
      rw [if_neg hi]
      rw [ih (i + 1) (piBody N x p s) k (fun j hj => hc j (by omega))]
      rw [Function.iterate_succ_apply, hmc]

theorem piSteps_shape (c : ℕ → Bool) (ci N x p : ℕ) :
    ∀ fuel i s k,
      piSteps c ci N x p fuel i s k = none ∨
        ∃ k', piSteps c ci N x p fuel i s k =
          some (((piBody N x p)^[fuel] s).2, k') := by
  intro fuel
  induction fuel with
  | zero => intro i s k; exact Or.inr ⟨k, by simp [piSteps]⟩
  | succ fuel ih =>
    intro i s k
    simp only [piSteps]
    by_cases hi : i % ci = 0
    · rw [if_pos hi]
      by_cases hck : c k = true
      · rw [hck]; exact Or.inl (by simp)
      · rw [Bool.not_eq_true] at hck
        rw [hck]
        simp only [Bool.false_eq_true, if_false]
        rcases ih (i + 1) (piBody N x p s) (k + 1) with h | ⟨k', h⟩
        · exact Or.inl h
        · exact Or.inr ⟨k', by rw [h, Function.iterate_succ_apply]⟩
    · rw [if_neg hi]
      rcases ih (i + 1) (piBody N x p s) k with h | ⟨k', h⟩
      · exact Or.inl h
      · exact Or.inr ⟨k', by rw [h, Function.iterate_succ_apply]⟩

theorem squareIterate (N x : ℕ) (hx : x % N = x) :
    ∀ n, (fun z => z ^ 2 % N)^[n] x = x ^ 2 ^ n % N := by
  intro n
  induction n with
  | zero => simp [pow_one, hx]
  | succ n ih =>
    rw [Function.iterate_succ_apply', ih]
    show (x ^ 2 ^ n % N) ^ 2 % N = x ^ 2 ^ (n + 1) % N
    rw [← Nat.pow_mod, ← pow_mul, ← pow_succ]

theorem piIterate (N x p : ℕ) (hp : 2 ≤ p) (hN : 0 < N) :
    ∀ n, ((piBody N x p)^[n] (1, 1)).1 = 2 ^ n % p ∧
      ((piBody N x p)^[n] (1, 1)).2 % N = x ^ (2 ^ n / p) % N ∧
      (1 ≤ n → ((piBody N x p)^[n] (1, 1)).2 < N) := by
  intro n
  induction n with
  | zero =>
    simp only [Function.iterate_zero_apply]
    refine ⟨(Nat.mod_eq_of_lt (by omega)).symm, ?_, by omega⟩
    have h0 : 2 ^ 0 / p = 0 := Nat.div_eq_of_lt (by omega)
    rw [h0, pow_zero]
  | succ n ih =>
    obtain ⟨ih1, ih2, _⟩ := ih
    rw [Function.iterate_succ_apply']
    set s := (piBody N x p)^[n] (1, 1) with hs
    set q := 2 ^ n / p with hq
    set ρ := 2 ^ n % p with hρ
    have hrm : p * q + ρ = 2 ^ n := Nat.div_add_mod _ _
    have hρlt : ρ < p := Nat.mod_lt _ (by omega)
    have hpi2 : s.2 ^ 2 % N = x ^ (2 * q) % N := by
      conv_lhs => rw [Nat.pow_mod, ih2, ← Nat.pow_mod]
      rw [← pow_mul, mul_comm q 2]
    have hkey : 2 ^ (n + 1) = 2 * (p * q) + 2 * ρ := by
      rw [pow_succ, ← hrm]; ring
    simp only [piBody, ih1]
    by_cases hle : p ≤ 2 * ρ
    · rw [if_pos hle]
      have hdm : 2 ^ (n + 1) / p = 2 * q + 1 ∧ 2 ^ (n + 1) % p = 2 * ρ - p := by
        rw [Nat.div_mod_unique (by omega : 0 < p)]
        have hexp : p * (2 * q + 1) = 2 * (p * q) + p := by ring
        omega
      refine ⟨by rw [hdm.2], ?_, fun _ => Nat.mod_lt _ hN⟩
      rw [hdm.1]
      show s.2 ^ 2 % N * x % N % N = x ^ (2 * q + 1) % N
      rw [Nat.mod_mod_of_dvd _ dvd_rfl]
      rw [hpi2, Nat.mod_mul_mod, ← pow_succ]
    · rw [if_neg hle]
      have hdm : 2 ^ (n + 1) / p = 2 * q ∧ 2 ^ (n + 1) % p = 2 * ρ := by
        rw [Nat.div_mod_unique (by omega : 0 < p)]
        have hexp : p * (2 * q) = 2 * (p * q) := by ring
        omega
      refine ⟨by rw [hdm.2], ?_, fun _ => Nat.mod_lt _ hN⟩
      rw [hdm.1]
      show s.2 ^ 2 % N % N = x ^ (2 * q) % N
      rw [Nat.mod_mod_of_dvd _ dvd_rfl, hpi2]

theorem RswPuzzle_new_some {time_bits : ℕ} {input modulus : List ℕ}
    {pz : RswPuzzle} (h : RswPuzzle.new time_bits input modulus = some pz) :
    pz.time_bits = time_bits ∧
    pz.base = fromDigitsBE input % fromDigitsBE modulus ∧
    pz.modulus = fromDigitsBE modulus ∧
    pz.iterations = 2 ^ time_bits ∧
    0 < pz.modulus ∧ pz.base < pz.modulus := by
  simp only [RswPuzzle.new] at h
  by_cases hm : fromDigitsBE modulus = 0
  · rw [if_pos hm] at h; exact absurd h (by simp)
  · rw [if_neg hm] at h
    have h' : (⟨time_bits, fromDigitsBE input % fromDigitsBE modulus,
        fromDigitsBE modulus, 2 ^ time_bits⟩ : RswPuzzle) = pz := by
      simpa using h
    subst h'
    refine ⟨rfl, rfl, rfl, rfl, Nat.pos_of_ne_zero hm, ?_⟩
    exact Nat.mod_lt _ (Nat.pos_of_ne_zero hm)

theorem WesolowskiVdf_new_some {fo : ℕ → FloatOutcome} {cache : ℕ → Option ℕ}
    {lambda time_bits : ℕ} {input modulus : List ℕ} {vdf : WesolowskiVdf}
    (h : WesolowskiVdf.new fo cache lambda time_bits input modulus = some vdf) :
    RswPuzzle.new time_bits input modulus = some vdf.puzzle ∧
    vdf.hash = HashToPrime.new fo cache lambda := by
  simp only [WesolowskiVdf.new] at h
  cases hpz : RswPuzzle.new time_bits input modulus with
  | none => rw [hpz] at h; exact absurd h (by simp)
  | some pz =>
    rw [hpz] at h
    have h' : (⟨pz, HashToPrime.new fo cache lambda⟩ : WesolowskiVdf) = vdf := by
      simpa using h
    subst h'
    exact ⟨hpz ▸ rfl, rfl⟩

theorem HashToPrime_new_wf {fo : ℕ → FloatOutcome} {cache : ℕ → Option ℕ}
    (hwf : CacheWF fo cache) (lambda : ℕ) :
    HashToPrime.new fo cache lambda =
      ⟨compute_precision_bound (fo lambda) / 6⟩ := by
  simp only [HashToPrime.new]
  cases hc : cache lambda with
  | none => rfl
  | some v => rw [hwf lambda v hc]

theorem check_interval_pos (T : ℕ) : 0 < check_interval T := by
  simp only [check_interval]; omega

theorem check_interval_le {T : ℕ} (hT : 1 ≤ T) : check_interval T ≤ T := by
  simp only [check_interval]
  have := Nat.div_le_self T 100
  omega

theorem proveWith_poll_window (ipp : ℕ → ℕ → Bool) (g : ℕ → ℕ → ℕ)
    (vdf : WesolowskiVdf) (c : ℕ → Bool) (ci : ℕ)
    (hc : ∀ k, k < 2 * (vdf.iterations / ci) → c k = false) :
    proveWith ipp g vdf c ci = proveWith ipp g vdf (fun _ => false) ci := by
  have hmc := mulCount_base ci vdf.iterations
  have h1 := squareSteps_window c ci vdf.modulus vdf.iterations 1 vdf.base 0
    (fun j hj => by
      have := hc j (by omega)
      simpa using this)
  have h2 := squareSteps_window (fun _ => false) ci vdf.modulus vdf.iterations 1
    vdf.base 0 (fun _ _ => rfl)
  simp only [proveWith]
  simp only [h1, h2]
  cases hh : vdf.hash_to_prime ipp g (vdf.base * 2 ^ significant_bits vdf.modulus +
      (fun z => z ^ 2 % vdf.modulus)^[vdf.iterations] vdf.base) with
  | none => simp only [hh]
  | some p =>
    have h3 := piSteps_window c ci vdf.modulus vdf.base p vdf.iterations 1 (1, 1)
      (0 + mulCount ci 1 vdf.iterations)
      (fun j hj => by
        have := hc (0 + mulCount ci 1 vdf.iterations + j) (by omega)
        simpa using this)
    have h4 := piSteps_window (fun _ => false) ci vdf.modulus vdf.base p
      vdf.iterations 1 (1, 1) (0 + mulCount ci 1 vdf.iterations) (fun _ _ => rfl)
    simp only [hh, h3, h4]

theorem proveWith_shape (ipp : ℕ → ℕ → Bool) (g : ℕ → ℕ → ℕ)
    (vdf : WesolowskiVdf) (c : ℕ → Bool) (ci : ℕ) :
    proveWith ipp g vdf c ci = Solution.empty ∨
      proveWith ipp g vdf c ci = proveWith ipp g vdf (fun _ => false) ci := by
  have h2 := squareSteps_window (fun _ => false) ci vdf.modulus vdf.iterations 1
    vdf.base 0 (fun _ _ => rfl)
  rcases squareSteps_shape c ci vdf.modulus vdf.iterations 1 vdf.base 0 with
    h1 | ⟨k', h1⟩
  · left; simp only [proveWith]; simp only [h1]
  · simp only [proveWith]
    simp only [h1, h2]
    cases hh : vdf.hash_to_prime ipp g (vdf.base * 2 ^ significant_bits vdf.modulus +
        (fun z => z ^ 2 % vdf.modulus)^[vdf.iterations] vdf.base) with
    | none => left; simp only [hh]
    | some p =>
      have h4 := piSteps_window (fun _ => false) ci vdf.modulus vdf.base p
        vdf.iterations 1 (1, 1) (0 + mulCount ci 1 vdf.iterations) (fun _ _ => rfl)
      rcases piSteps_shape c ci vdf.modulus vdf.base p vdf.iterations 1 (1, 1) k' with
        h3 | ⟨k'', h3⟩
      · left; simp only [hh, h3]
      · right; simp only [hh, h3, h4]

theorem proveWith_allTrue (ipp : ℕ → ℕ → Bool) (g : ℕ → ℕ → ℕ)
    (vdf : WesolowskiVdf) (c : ℕ → Bool) (ci : ℕ)
    (hc : ∀ k, c k = true) (hci : 0 < ci) (hcile : ci ≤ vdf.iterations) :
    proveWith ipp g vdf c ci = Solution.empty := by
  have h1 := squareSteps_allTrue c ci vdf.modulus hc vdf.iterations 1 vdf.base 0 ci
    (by omega) (by omega) (Nat.mod_self ci)
  simp only [proveWith]
  simp only [h1]

theorem proveWith_pollTrue (ipp : ℕ → ℕ → Bool) (g : ℕ → ℕ → ℕ)
    (vdf : WesolowskiVdf) (c : ℕ → Bool) (ci : ℕ)
    (hmono : ∀ j k, j ≤ k → c j = true → c k = true)
    (hex : ∃ k, k < 2 * (vdf.iterations / ci) ∧ c k = true) :
    proveWith ipp g vdf c ci = Solution.empty := by
  obtain ⟨k0, hk0, hck0⟩ := hex
  have hmc : mulCount ci 1 vdf.iterations = vdf.iterations / ci :=
    mulCount_base ci _
  have hmcpos : 1 ≤ vdf.iterations / ci := by omega
  by_cases hfirst : c (vdf.iterations / ci - 1) = true
  · have h1 := squareSteps_lastTrue c ci vdf.modulus vdf.iterations 1 vdf.base 0
      (by omega)
      (by
        have he : 0 + mulCount ci 1 vdf.iterations - 1 = vdf.iterations / ci - 1 := by
          omega
        rw [he]
        exact hfirst)
    simp only [proveWith]
    simp only [h1]
  · have hfalse : ∀ j, j < vdf.iterations / ci → c j = false := by
      intro j hj
      cases hcj : c j with
      | false => rfl
      | true => exact absurd (hmono j (vdf.iterations / ci - 1) (by omega) hcj) hfirst
    have h1 := squareSteps_window c ci vdf.modulus vdf.iterations 1 vdf.base 0
      (fun j hj => by
        have := hfalse j (by omega)
        simpa using this)
    simp only [proveWith]
    simp only [h1]
    cases hh : vdf.hash_to_prime ipp g (vdf.base * 2 ^ significant_bits vdf.modulus +
        (fun z => z ^ 2 % vdf.modulus)^[vdf.iterations] vdf.base) with
    | none => simp only [hh]
    | some p =>
      have hlast : c (0 + mulCount ci 1 vdf.iterations +
          mulCount ci 1 vdf.iterations - 1) = true := by
        exact hmono k0 _ (by omega) hck0
      have h2 := piSteps_lastTrue c ci vdf.modulus vdf.base p vdf.iterations 1 (1, 1)
        (0 + mulCount ci 1 vdf.iterations) (by omega) hlast
      simp only [hh, h2]

theorem prove_poll_only (ipp : ℕ → ℕ → Bool) (g : ℕ → ℕ → ℕ)
    (vdf : WesolowskiVdf) (c : ℕ → Bool)
    (hc : ∀ k, c k = false) :
    prove ipp g vdf c = prove ipp g vdf (fun _ => false) := by
  simp only [prove]
  by_cases hT : vdf.iterations < 2 ^ 64
  · rw [if_pos hT, if_pos hT]
    exact proveWith_poll_window ipp g vdf c _ (fun k _ => hc k)
  · rw [if_neg hT, if_neg hT]
    exact proveWith_poll_window ipp g vdf c _ (fun k _ => hc k)

theorem cacheEmpty_wf (fo : ℕ → FloatOutcome) : CacheWF fo cacheEmpty :=
  fun _ _ h => Option.noConfusion h

theorem cacheMin_wf : CacheWF foMin cacheMin := by
  intro l v h
  simp only [cacheMin, Option.some.injEq] at h
  rw [← h]; rfl

theorem hashSearch_none (ipp : ℕ → Bool) (g : ℕ → ℕ) (pm : ℕ) :
    ∀ fuel count idx,
      (hashSearch ipp g pm fuel count idx).1 = none →
      (hashSearch ipp g pm fuel count idx).2 = count + fuel := by
  intro fuel
  induction fuel with
  | zero => intro count idx _; simp [hashSearch]
  | succ fuel ih =>
    intro count idx h
    simp only [hashSearch] at h ⊢
    by_cases hraw : rawDraw g pm idx = 0
    · rw [if_pos hraw] at h ⊢
      rw [ih (count + 1) (idx + 2) h]; omega
    · rw [if_neg hraw] at h ⊢
      by_cases hp : ipp (6 * rawDraw g pm idx + 2 * (g (idx + 1) % 2) - 1) = true
      · rw [if_pos hp] at h; exact absurd h (by simp)
      · rw [if_neg hp] at h ⊢
        rw [ih (count + 1) (idx + 2) h]; omega

theorem hashSearch_gLate :
    ∀ fuel count idx, idx + 2 * fuel = 20000 → 1 ≤ fuel →
      hashSearch (ippFive MAX_MILLER_RABIN) (gLate 1) (practical_max (2 ^ 64 / 6))
          fuel count idx =
        (some 5, count + fuel) := by
  intro fuel
  induction fuel with
  | zero => intro count idx _ h2; omega
  | succ f ih =>
    intro count idx h1 h2
    by_cases hf : f = 0
    · subst hf
      have hidx : idx = 19998 := by omega
      subst hidx
      have e1 : rawDraw (gLate 1) (practical_max (2 ^ 64 / 6)) 19998 = 1 := by decide
      have e2 : gLate 1 (19998 + 1) % 2 = 0 := by decide
      simp only [hashSearch, e1, e2]
      norm_num [ippFive]
    · have hne : idx ≠ 19998 := by omega
      have e1 : rawDraw (gLate 1) (practical_max (2 ^ 64 / 6)) idx = 0 := by
        show gLate 1 idx % _ = 0
        have hg : gLate 1 idx = 0 := by simp [gLate, hne]
        rw [hg]; exact Nat.zero_mod _
      show (if rawDraw (gLate 1) (practical_max (2 ^ 64 / 6)) idx = 0 then _ else _) = _
      rw [e1, if_pos rfl]
      rw [ih (count + 1) (idx + 2) (by omega) (by omega)]
      have he : count + 1 + f = count + (f + 1) := by omega
      rw [he]

/-! ### Claims -/

/-- Claim C6 (confirmed): for every `time_bits` and byte strings `input` and
`modulus` with decoded modulus > 0 (equivalently, whenever the constructor
returns a puzzle), the constructed puzzle satisfies
`base = decode(input) mod modulus`, hence `base < modulus`; in particular
`base = 0` when the input is empty or byte-for-byte equal to the modulus; and
`iterations = 2^time_bits` exactly. -/
theorem c6_puzzle_construction :
    ∀ (time_bits : ℕ) (input modulus : List ℕ) (pz : RswPuzzle),
      RswPuzzle.new time_bits input modulus = some pz →
      pz.base = fromDigitsBE input % fromDigitsBE modulus ∧
      pz.base < pz.modulus ∧
      pz.modulus = fromDigitsBE modulus ∧
      (input = [] → pz.base = 0) ∧
      (input = modulus → pz.base = 0) ∧
      pz.iterations = 2 ^ time_bits := by
  intro tb input modulus pz h
  obtain ⟨_, hb, hm, hit, hpos, hlt⟩ := RswPuzzle_new_some h
  refine ⟨hb, hlt, hm, ?_, ?_, hit⟩
  · rintro rfl
    rw [hb]
    show Nat.ofDigits 256 List.nil.reverse % fromDigitsBE modulus = 0
    simp [Nat.ofDigits]
  · rintro rfl
    rw [hb, Nat.mod_self]

/-- Witness for C6 at the integration scenario `time_bits = 2`,
`input = [0x02]`, `modulus = [0x01, 0x01]` (N = 257). -/
theorem c6_puzzle_construction_witness :
    (⟨2, 2, 257, 4⟩ : RswPuzzle).base < (⟨2, 2, 257, 4⟩ : RswPuzzle).modulus ∧
    (⟨2, 2, 257, 4⟩ : RswPuzzle).iterations = 2 ^ 2 :=
  ⟨(c6_puzzle_construction 2 [2] [1, 1] ⟨2, 2, 257, 4⟩ (by decide)).2.1,
   (c6_puzzle_construction 2 [2] [1, 1] ⟨2, 2, 257, 4⟩ (by decide)).2.2.2.2.2⟩

/-- Claim C10 (confirmed): when the modulus byte string decodes to zero,
`RswPuzzle::new` hits a GMP division by zero in `base % modulus` and aborts
the process (modelled `none`) rather than returning an error value, and
`WesolowskiVdf::new` propagates the abort; when the decoded modulus is
positive both constructors are total and return a value. -/
theorem c10_zero_modulus :
    ∀ (fo : ℕ → FloatOutcome) (cache : ℕ → Option ℕ)
      (lambda time_bits : ℕ) (input modulus : List ℕ),
      (fromDigitsBE modulus = 0 →
        RswPuzzle.new time_bits input modulus = none ∧
        WesolowskiVdf.new fo cache lambda time_bits input modulus = none) ∧
      (fromDigitsBE modulus ≠ 0 →
        (RswPuzzle.new time_bits input modulus).isSome = true ∧
        (WesolowskiVdf.new fo cache lambda time_bits input modulus).isSome = true) := by
  intro fo cache lambda tb input modulus
  constructor
  · intro hm
    have h1 : RswPuzzle.new tb input modulus = none := by
      simp [RswPuzzle.new, hm]
    exact ⟨h1, by simp [WesolowskiVdf.new, h1]⟩
  · intro hm
    have h1 : RswPuzzle.new tb input modulus =
        some ⟨tb, fromDigitsBE input % fromDigitsBE modulus,
          fromDigitsBE modulus, 2 ^ tb⟩ := by
      simp [RswPuzzle.new, hm]
    exact ⟨by simp [h1], by simp [WesolowskiVdf.new, h1]⟩

/-- Witness for C10: the zero-modulus byte string `[0x00]` aborts both
constructors; the positive modulus `[0x01, 0x01]` yields a value. -/
theorem c10_zero_modulus_witness :
    RswPuzzle.new 2 [2] [0] = none ∧
    (WesolowskiVdf.new foMin cacheEmpty 1500 2 [2] [1, 1]).isSome = true :=
  ⟨((c10_zero_modulus foMin cacheEmpty 1500 2 [2] [0]).1 (by decide)).1,
   ((c10_zero_modulus foMin cacheEmpty 1500 2 [2] [1, 1]).2 (by decide)).2⟩

/-- Claim C9 (counterexample): a finite, nonzero Lambert-W result whose
scaled f64 bit count (9000) falls outside `[64, 8192]` — an out-of-range
result, a float-pipeline failure in the claim's terms — does not make
`compute_precision_bound` return `2^64`: the integer-conversion fallback
clamps 9000 to 8192 and returns `2^8192`. -/
theorem c9_counterexample :
    compute_precision_bound ⟨true, some 9000, some 9000⟩ = 2 ^ 8192 ∧
    ¬(64 ≤ 9000 ∧ 9000 ≤ 8192) ∧
    compute_precision_bound ⟨true, some 9000, some 9000⟩ ≠ 2 ^ 64 := by
  have h : compute_precision_bound ⟨true, some 9000, some 9000⟩ =
      2 ^ max 64 (min 9000 8192) := by
    simp only [compute_precision_bound]
    rw [if_pos trivial, if_neg (by decide)]
  have hm : max 64 (min 9000 8192) = 8192 := by decide
  rw [h, hm]
  refine ⟨rfl, by omega, fun hcontra => ?_⟩
  have := Nat.pow_right_injective (le_refl 2) hcontra
  omega

/-- Claim C9 (amended): `compute_precision_bound` always returns a power of
two `2^k` with `k ∈ [64, 8192]` and never raises.  A non-finite or zero
Lambert-W result returns exactly `2^64`, as does failure of both the f64 and
the integer conversion of `|w|`; but an out-of-range scaled f64 bit count
falls back to the integer conversion of `|w|` clamped to `[64, 8192]`
(returning `2^64` only when that clamp lands on 64). -/
theorem c9_precision_bound_amended :
    ∀ o : FloatOutcome,
      (∃ k, 64 ≤ k ∧ k ≤ 8192 ∧ compute_precision_bound o = 2 ^ k) ∧
      (o.wFiniteNonzero = false → compute_precision_bound o = 2 ^ 64) ∧
      (o.scaledBits = none → o.intBits = none →
        compute_precision_bound o = 2 ^ 64) ∧
      (o.wFiniteNonzero = true → ∀ s b, o.scaledBits = some s →
        ¬(64 ≤ s ∧ s ≤ 8192) → o.intBits = some b →
        compute_precision_bound o = 2 ^ max 64 (min b 8192)) := by
  intro o
  obtain ⟨w, sb, ib⟩ := o
  refine ⟨compute_precision_bound_shape _, ?_, ?_, ?_⟩
  · intro hw
    simp only at hw
    subst hw
    rfl
  · intro hsb hib
    simp only at hsb hib
    subst hsb; subst hib
    cases w <;> rfl
  · intro hw s b hsb hs hib
    simp only at hw hsb hib
    subst hw; subst hsb; subst hib
    show (if 64 ≤ s ∧ s ≤ 8192 then (2 : ℕ) ^ s
      else 2 ^ max 64 (min b 8192)) = 2 ^ max 64 (min b 8192)
    rw [if_neg hs]

/-- Witness for C9: a non-finite outcome returns exactly `2^64`; the
out-of-range outcome of the counterexample takes the clamped
integer-conversion fallback. -/
theorem c9_precision_bound_amended_witness :
    compute_precision_bound ⟨false, none, none⟩ = 2 ^ 64 ∧
    compute_precision_bound ⟨true, some 9000, some 9000⟩ =
      2 ^ max 64 (min 9000 8192) :=
  ⟨(c9_precision_bound_amended ⟨false, none, none⟩).2.1 rfl,
   (c9_precision_bound_amended ⟨true, some 9000, some 9000⟩).2.2.2 rfl 9000 9000
     rfl (by omega) rfl⟩

/-- Claim C8 (confirmed): with a well-formed cache, every raw candidate the
search loop of `hash_to_prime` draws (`random_below(practical_max)`, the value
before the `6k ± 1` transformation) lies in `[0, max_int)`, where `max_int`
is the density-adjusted ceiling `B(lambda) / 6` stored by
`HashToPrime::new(lambda)`: the actual draw ceiling `practical_max` is
`2^32 / 6`, strictly below `max_int ≥ 2^64 / 6`. -/
theorem c8_candidate_range :
    ∀ (fo : ℕ → FloatOutcome) (cache : ℕ → Option ℕ) (lambda : ℕ)
      (g : ℕ → ℕ) (idx : ℕ),
      CacheWF fo cache →
      rawDraw g (practical_max (HashToPrime.new fo cache lambda).max_int) idx <
        (HashToPrime.new fo cache lambda).max_int := by
  intro fo cache lambda g idx hwf
  rw [HashToPrime_new_wf hwf]
  obtain ⟨k, hk1, _, he⟩ := compute_precision_bound_shape (fo lambda)
  rw [he]
  have hmono : (2 : ℕ) ^ 64 / 6 ≤ 2 ^ k / 6 :=
    Nat.div_le_div_right (Nat.pow_le_pow_right (by omega) hk1)
  have hsb : 32 ≤ significant_bits (2 ^ k / 6) := by
    have h31 : (2 : ℕ) ^ 31 ≤ 2 ^ k / 6 := by
      have h3 : (2 : ℕ) ^ 31 ≤ 2 ^ 64 / 6 := by norm_num
      omega
    exact significant_bits_lower h31
  have hpm : practical_max (2 ^ k / 6) = 2 ^ 32 / 6 := by
    simp only [practical_max]
    rw [min_eq_right hsb]
    norm_num
  rw [hpm]
  show g idx % (2 ^ 32 / 6) < 2 ^ k / 6
  have hlt : g idx % (2 ^ 32 / 6) < 2 ^ 32 / 6 := Nat.mod_lt _ (by norm_num)
  have h32 : (2 : ℕ) ^ 32 / 6 < 2 ^ 64 / 6 := by norm_num
  omega

/-- Witness for C8 at `lambda = 1500` with the empty cache and the `gFive`
stream. -/
theorem c8_candidate_range_witness :
    rawDraw (gFive 1) (practical_max (HashToPrime.new foMin cacheEmpty 1500).max_int) 0 <
      (HashToPrime.new foMin cacheEmpty 1500).max_int :=
  c8_candidate_range foMin cacheEmpty 1500 (gFive 1) 0 (cacheEmpty_wf foMin)

/-- Claim C2 (confirmed): `verify` is total — every `Solution` yields a
boolean, never an exception (the embedded function is total by construction).
It returns `false` whenever the decoded `pi` or `y` is zero or `≥ N`, or the
challenge hash fails; otherwise it returns `true` exactly when
`(x^r mod N) * (pi^p mod N) mod N` equals `y`, with
`p = HashToPrime(x * 2^bitlen(N) + y)` and `r = 2^T mod p`. -/
theorem c2_verifier_decision :
    ∀ (ipp : ℕ → ℕ → Bool) (g : ℕ → ℕ → ℕ) (vdf : WesolowskiVdf) (s : Solution),
      (fromDigitsBE s.second = 0 ∨ fromDigitsBE s.first = 0 ∨
          vdf.modulus ≤ fromDigitsBE s.second ∨ vdf.modulus ≤ fromDigitsBE s.first →
        verify ipp g vdf s = false) ∧
      (vdf.hash_to_prime ipp g (vdf.base * 2 ^ significant_bits vdf.modulus +
          fromDigitsBE s.second) = none →
        verify ipp g vdf s = false) ∧
      (∀ p, ¬(fromDigitsBE s.second = 0 ∨ fromDigitsBE s.first = 0 ∨
          vdf.modulus ≤ fromDigitsBE s.second ∨ vdf.modulus ≤ fromDigitsBE s.first) →
        vdf.hash_to_prime ipp g (vdf.base * 2 ^ significant_bits vdf.modulus +
          fromDigitsBE s.second) = some p →
        (verify ipp g vdf s = true ↔
          fromDigitsBE s.second =
            vdf.base ^ (2 ^ vdf.iterations % p) % vdf.modulus *
              (fromDigitsBE s.first ^ p % vdf.modulus) % vdf.modulus)) := by
  intro ipp g vdf s
  refine ⟨?_, ?_, ?_⟩
  · intro h
    simp only [verify]
    rw [if_pos h]
  · intro h
    simp only [verify]
    by_cases hc : fromDigitsBE s.second = 0 ∨ fromDigitsBE s.first = 0 ∨
        vdf.modulus ≤ fromDigitsBE s.second ∨ vdf.modulus ≤ fromDigitsBE s.first
    · rw [if_pos hc]
    · rw [if_neg hc]
      simp only [h]
  · intro p hc hp
    simp only [verify]
    rw [if_neg hc]
    simp only [hp]
    exact decide_eq_true_iff

/-- Witness for C2: an all-zero solution is rejected on the 257-modulus
instance. -/
theorem c2_verifier_decision_witness :
    verify ippFive gFive vdfA ⟨[0], [0]⟩ = false :=
  (c2_verifier_decision ippFive gFive vdfA ⟨[0], [0]⟩).1 (Or.inl (by decide))

/-- Claim C4 (counterexample): a run in which the first 9999 candidates are
retried and the 10000th candidate (5) passes the primality test: the search
accepts a candidate, yet because the final count equals the 10000-iteration
cap, `hash_to_prime` still returns the error.  So the error is not returned
exactly when the cap is reached *without* accepting a candidate. -/
theorem c4_counterexample :
    hashSearch (ippFive MAX_MILLER_RABIN) (gLate (hashSeed 1))
        (practical_max (HashToPrime.new foMin cacheEmpty 1500).max_int)
        MAX_ITER 0 0 = (some 5, MAX_ITER) ∧
    ippFive MAX_MILLER_RABIN 5 = true ∧
    hash_to_prime ippFive gLate (HashToPrime.new foMin cacheEmpty 1500) 1 = none := by
  have hseed : hashSeed 1 = 1 := by decide
  have hmax : (HashToPrime.new foMin cacheEmpty 1500).max_int = 2 ^ 64 / 6 := rfl
  have hrun := hashSearch_gLate MAX_ITER 0 0 (by norm_num [MAX_ITER]) (by norm_num [MAX_ITER])
  refine ⟨?_, rfl, ?_⟩
  · rw [hseed, hmax]
    simpa using hrun
  · simp only [hash_to_prime]
    rw [hseed, hmax]
    have hrun' : hashSearch (ippFive MAX_MILLER_RABIN) (gLate 1)
        (practical_max (2 ^ 64 / 6)) MAX_ITER 0 0 = (some 5, MAX_ITER) := by
      simpa using hrun
    rw [hrun']
    simp

/-- Claim C4 (amended): every successful `hash_to_prime` result `r` satisfies
`r mod 6 ∈ {1, 5}` and passes the 30-round probabilistic primality test; and
the recoverable error is returned exactly when the search loop runs all
10000 iterations — including the corner case in which the 10000th candidate
passes the test, which is still reported as an error. -/
theorem c4_hash_to_prime_amended :
    ∀ (ipp : ℕ → ℕ → Bool) (g : ℕ → ℕ → ℕ) (h : HashToPrime) (input : ℕ),
      (∀ p, hash_to_prime ipp g h input = some p →
        (p % 6 = 1 ∨ p % 6 = 5) ∧ ipp MAX_MILLER_RABIN p = true ∧ 5 ≤ p) ∧
      (hash_to_prime ipp g h input = none ↔
        (hashSearch (ipp MAX_MILLER_RABIN) (g (hashSeed input))
          (practical_max h.max_int) MAX_ITER 0 0).2 = MAX_ITER) := by
  intro ipp g h input
  constructor
  · intro p hp
    exact hash_to_prime_some ipp g h input p hp
  · simp only [hash_to_prime]
    by_cases hc : (hashSearch (ipp MAX_MILLER_RABIN) (g (hashSeed input))
        (practical_max h.max_int) MAX_ITER 0 0).2 = MAX_ITER
    · rw [if_pos hc]
      simp [hc]
    · rw [if_neg hc]
      constructor
      · intro h1
        exact absurd ((hashSearch_none _ _ _ MAX_ITER 0 0 h1).trans (by omega)) hc
      · intro h1
        exact absurd h1 hc

/-- Witness for C4: the immediately accepting run yields the prime 5, of the
form `6k - 1`, accepted by the 30-round test. -/
theorem c4_hash_to_prime_amended_witness :
    (5 % 6 = 1 ∨ 5 % 6 = 5) ∧ ippFive MAX_MILLER_RABIN 5 = true ∧ 5 ≤ 5 :=
  (c4_hash_to_prime_amended ippFive gFive
    (HashToPrime.new foMin cacheEmpty 1500) 0).1 5 (by decide)

/-- Claim C3 (confirmed): in an uncancelled run of the proof-accumulation
loop of `prove` — `T` iterations from `r = 1, pi = 1`, each doing
`pi = pi^2 mod N`, `r = 2r`, and on `r ≥ p` also `r -= p`,
`pi = pi * x mod N` — the final accumulator equals
`x ^ (2^T / p) mod N`, where `p` is the challenge prime returned by
`hash_to_prime`. -/
theorem c3_pi_loop_postcondition :
    ∀ (ipp : ℕ → ℕ → Bool) (g : ℕ → ℕ → ℕ) (h : HashToPrime) (xy : ℕ)
      (N x p T ci k0 : ℕ) (c : ℕ → Bool),
      0 < N → 1 ≤ T →
      hash_to_prime ipp g h xy = some p →
      (∀ k, c k = false) →
      piSteps c ci N x p T 1 (1, 1) k0 =
        some (x ^ (2 ^ T / p) % N, k0 + mulCount ci 1 T) := by
  intro ipp g h xy N x p T ci k0 c hN hT hp hc
  have hp5 : 5 ≤ p := (hash_to_prime_some ipp g h xy p hp).2.2
  rw [piSteps_window c ci N x p T 1 (1, 1) k0 (fun j _ => hc _)]
  obtain ⟨_, h2, h3⟩ := piIterate N x p (by omega) hN T
  have hfin : ((piBody N x p)^[T] (1, 1)).2 = x ^ (2 ^ T / p) % N := by
    rwa [Nat.mod_eq_of_lt (h3 hT)] at h2
  rw [hfin]

/-- Witness for C3: `N = 257, x = 2, p = 5, T = 4`:
`pi = 2^(16/5) mod 257 = 8`. -/
theorem c3_pi_loop_postcondition_witness :
    piSteps (fun _ => false) 1 257 2 5 4 1 (1, 1) 0 =
      some (2 ^ (2 ^ 4 / 5) % 257, 0 + mulCount 1 1 4) :=
  c3_pi_loop_postcondition ippFive gFive (HashToPrime.new foMin cacheEmpty 1500)
    0 257 2 5 4 1 0 (fun _ => false) (by omega) (by omega) (by decide)
    (fun _ => rfl)

/-- Claim C7 (confirmed): (i) a token cancelled before `prove` starts makes
`prove` return `Solution{proof: [], output: []}`; (ii) the empty solution is
the only abort path — every run returns either the empty solution or the
result of the uncancelled run; (iii) cancellation is polled every
`check_interval` squarings, `check_interval = clamp(T/100, 1, 10000)`, when
`T` fits the native width: only the first `2 * (T / check_interval)` poll
answers can influence the result; (iv) a monotone token (cancellation is
monotonic) that is cancelled at any poll of the run likewise yields the
empty solution. -/
theorem c7_cancellation :
    ∀ (fo : ℕ → FloatOutcome) (cache : ℕ → Option ℕ) (lambda time_bits : ℕ)
      (input modulus : List ℕ) (vdf : WesolowskiVdf) (ipp : ℕ → ℕ → Bool)
      (g : ℕ → ℕ → ℕ),
      WesolowskiVdf.new fo cache lambda time_bits input modulus = some vdf →
      ((∀ c, (∀ k, c k = true) → prove ipp g vdf c = Solution.empty) ∧
       (∀ c, prove ipp g vdf c = Solution.empty ∨
          prove ipp g vdf c = prove ipp g vdf (fun _ => false)) ∧
       (vdf.iterations < 2 ^ 64 →
        ∀ c, (∀ k, k < 2 * (vdf.iterations / check_interval vdf.iterations) →
            c k = false) →
          prove ipp g vdf c = prove ipp g vdf (fun _ => false)) ∧
       (vdf.iterations < 2 ^ 64 →
        ∀ c, (∀ j k, j ≤ k → c j = true → c k = true) →
          (∃ k, k < 2 * (vdf.iterations / check_interval vdf.iterations) ∧
            c k = true) →
          prove ipp g vdf c = Solution.empty)) := by
  intro fo cache lambda tb input modulus vdf ipp g hnew
  obtain ⟨hpz, _⟩ := WesolowskiVdf_new_some hnew
  obtain ⟨_, _, _, hit, _, _⟩ := RswPuzzle_new_some hpz
  have hT : 1 ≤ vdf.iterations := by
    show 1 ≤ vdf.puzzle.iterations
    rw [hit]
    exact Nat.one_le_two_pow
  refine ⟨?_, ?_, ?_, ?_⟩
  · intro c hc
    simp only [prove]
    by_cases h64 : vdf.iterations < 2 ^ 64
    · rw [if_pos h64]
      exact proveWith_allTrue ipp g vdf c _ hc (check_interval_pos _)
        (check_interval_le hT)
    · rw [if_neg h64]
      refine proveWith_allTrue ipp g vdf c _ hc (by norm_num [LARGE_CHECK_INTERVAL]) ?_
      have h1 : (2 : ℕ) ^ 64 ≤ vdf.iterations := not_lt.mp h64
      have h2 : LARGE_CHECK_INTERVAL ≤ 2 ^ 64 := by norm_num [LARGE_CHECK_INTERVAL]
      omega
  · intro c
    simp only [prove]
    by_cases h64 : vdf.iterations < 2 ^ 64
    · rw [if_pos h64, if_pos h64]
      exact proveWith_shape ipp g vdf c _
    · rw [if_neg h64, if_neg h64]
      exact proveWith_shape ipp g vdf c _
  · intro h64 c hc
    simp only [prove]
    rw [if_pos h64, if_pos h64]
    exact proveWith_poll_window ipp g vdf c _ hc
  · intro h64 c hmono hex
    simp only [prove]
    rw [if_pos h64]
    exact proveWith_pollTrue ipp g vdf c _ hmono hex

/-- Witness for C7: a pre-cancelled token on the 257-modulus instance yields
the empty solution. -/
theorem c7_cancellation_witness :
    prove ippFive gFive vdfA (fun _ => true) = Solution.empty :=
  ((c7_cancellation foMin cacheEmpty 1500 2 [2] [1, 1] vdfA ippFive gFive
    (by decide)).1) (fun _ => true) (fun _ => rfl)

/-- Claim C5 (confirmed): determinism.  Two `prove` runs on VDFs built from
the same `(lambda, time_bits, input, modulus)` with fresh never-cancelled
tokens yield identical (hence byte-identical) Solutions, and the two
`hash_to_prime` instances agree on every input, regardless of the states of
the shared precision-bound cache (any two well-formed cache states). -/
theorem c5_determinism :
    ∀ (fo : ℕ → FloatOutcome) (cache1 cache2 : ℕ → Option ℕ)
      (lambda time_bits : ℕ) (input modulus : List ℕ)
      (ipp : ℕ → ℕ → Bool) (g : ℕ → ℕ → ℕ)
      (vdf1 vdf2 : WesolowskiVdf) (c1 c2 : ℕ → Bool),
      CacheWF fo cache1 → CacheWF fo cache2 →
      WesolowskiVdf.new fo cache1 lambda time_bits input modulus = some vdf1 →
      WesolowskiVdf.new fo cache2 lambda time_bits input modulus = some vdf2 →
      (∀ k, c1 k = false) → (∀ k, c2 k = false) →
      prove ipp g vdf1 c1 = prove ipp g vdf2 c2 ∧
      (∀ inp, vdf1.hash_to_prime ipp g inp = vdf2.hash_to_prime ipp g inp) := by
  intro fo cache1 cache2 lambda tb input modulus ipp g vdf1 vdf2 c1 c2
    hwf1 hwf2 hnew1 hnew2 hc1 hc2
  obtain ⟨hpz1, hh1⟩ := WesolowskiVdf_new_some hnew1
  obtain ⟨hpz2, hh2⟩ := WesolowskiVdf_new_some hnew2
  have hv : vdf1 = vdf2 := by
    have hp : vdf1.puzzle = vdf2.puzzle := by
      rw [hpz1] at hpz2
      exact Option.some_injective _ hpz2
    have hhash : vdf1.hash = vdf2.hash := by
      rw [hh1, hh2, HashToPrime_new_wf hwf1, HashToPrime_new_wf hwf2]
    cases vdf1
    cases vdf2
    simp only at hp hhash
    rw [hp, hhash]
  subst hv
  refine ⟨?_, fun _ => rfl⟩
  rw [prove_poll_only ipp g vdf1 c1 hc1, prove_poll_only ipp g vdf1 c2 hc2]

/-- Witness for C5: two well-formed cache states (empty, and fully populated
with the minimum bound) and two fresh tokens give the same Solution on the
257-modulus instance. -/
theorem c5_determinism_witness :
    prove ippFive gFive vdfA (fun _ => false) =
      prove ippFive gFive vdfA (fun _ => false) ∧
    (∀ inp, vdfA.hash_to_prime ippFive gFive inp =
      vdfA.hash_to_prime ippFive gFive inp) :=
  c5_determinism foMin cacheEmpty cacheMin 1500 2 [2] [1, 1] ippFive gFive
    vdfA vdfA (fun _ => false) (fun _ => false) (cacheEmpty_wf foMin) cacheMin_wf
    (by decide) (by decide) (fun _ => rfl) (fun _ => rfl)

/-- Claim C1 (counterexample): completeness fails as stated.  With the empty
input (base 0), modulus bytes `[0x02]` (decoded modulus 2 > 0) and a token
that is never cancelled, the prover's output `y = 0^(2^T) mod 2 = 0` is
serialized as the empty byte string, which the verifier's range check
rejects: `verify(prove(vdf))` is `false`. -/
theorem c1_counterexample :
    0 < fromDigitsBE [2] ∧
    WesolowskiVdf.new foMin cacheEmpty 1500 2 [] [2] = some vdfC1 ∧
    verify ippFive gFive vdfC1 (prove ippFive gFive vdfC1 (fun _ => false)) = false := by
  refine ⟨by decide, by decide, by decide⟩

/-- Claim C1 (amended): completeness holds for every lambda, time_bits, input
and modulus whenever, in addition, the challenge hashing succeeds and the
output `y = x^(2^T) mod N` is nonzero: an uncancelled `prove` followed by
`verify` with the same parameters returns `true`. -/
theorem c1_completeness_amended :
    ∀ (fo : ℕ → FloatOutcome) (cache : ℕ → Option ℕ) (lambda time_bits : ℕ)
      (input modulus : List ℕ) (vdf : WesolowskiVdf) (ipp : ℕ → ℕ → Bool)
      (g : ℕ → ℕ → ℕ) (c : ℕ → Bool) (p : ℕ),
      WesolowskiVdf.new fo cache lambda time_bits input modulus = some vdf →
      (∀ k, c k = false) →
      vdf.hash_to_prime ipp g (vdf.base * 2 ^ significant_bits vdf.modulus +
        vdf.base ^ 2 ^ vdf.iterations % vdf.modulus) = some p →
      vdf.base ^ 2 ^ vdf.iterations % vdf.modulus ≠ 0 →
      verify ipp g vdf (prove ipp g vdf c) = true := by
  intro fo cache lambda tb input modulus vdf ipp g c p hnew hc hhash hy
  obtain ⟨hpz, _⟩ := WesolowskiVdf_new_some hnew
  obtain ⟨_, _, _, hit, hpos, hltb⟩ := RswPuzzle_new_some hpz
  have hNpos : 0 < vdf.modulus := hpos
  have hxN : vdf.base % vdf.modulus = vdf.base := Nat.mod_eq_of_lt hltb
  have hT1 : 1 ≤ vdf.iterations := by
    show 1 ≤ vdf.puzzle.iterations
    rw [hit]
    exact Nat.one_le_two_pow
  have hp5 : 5 ≤ p := (hash_to_prime_some _ _ _ _ _ hhash).2.2
  have hiter : (fun z => z ^ 2 % vdf.modulus)^[vdf.iterations] vdf.base =
      vdf.base ^ 2 ^ vdf.iterations % vdf.modulus :=
    squareIterate vdf.modulus vdf.base hxN vdf.iterations
  have hfin : ((piBody vdf.modulus vdf.base p)^[vdf.iterations] (1, 1)).2 =
      vdf.base ^ (2 ^ vdf.iterations / p) % vdf.modulus := by
    obtain ⟨_, h2, h3⟩ :=
      piIterate vdf.modulus vdf.base p (by omega) hNpos vdf.iterations
    rwa [Nat.mod_eq_of_lt (h3 hT1)] at h2
  have hmain : ∀ ci, proveWith ipp g vdf c ci =
      ⟨toDigitsBE (vdf.base ^ (2 ^ vdf.iterations / p) % vdf.modulus),
       toDigitsBE (vdf.base ^ 2 ^ vdf.iterations % vdf.modulus)⟩ := by
    intro ci
    have h1 := squareSteps_window c ci vdf.modulus vdf.iterations 1 vdf.base 0
      (fun j _ => hc _)
    have h3 := piSteps_window c ci vdf.modulus vdf.base p vdf.iterations 1 (1, 1)
      (0 + mulCount ci 1 vdf.iterations) (fun j _ => hc _)
    simp only [proveWith]
    simp only [h1, hiter]
    simp only [hhash]
    simp only [h3, hfin]
  have hprove : prove ipp g vdf c =
      ⟨toDigitsBE (vdf.base ^ (2 ^ vdf.iterations / p) % vdf.modulus),
       toDigitsBE (vdf.base ^ 2 ^ vdf.iterations % vdf.modulus)⟩ := by
    simp only [prove]
    by_cases h64 : vdf.iterations < 2 ^ 64
    · rw [if_pos h64]; exact hmain _
    · rw [if_neg h64]; exact hmain _
  rw [hprove]
  have hyN : vdf.base ^ 2 ^ vdf.iterations % vdf.modulus < vdf.modulus :=
    Nat.mod_lt _ hNpos
  have hpiN : vdf.base ^ (2 ^ vdf.iterations / p) % vdf.modulus < vdf.modulus :=
    Nat.mod_lt _ hNpos
  have hpi0 : vdf.base ^ (2 ^ vdf.iterations / p) % vdf.modulus ≠ 0 := by
    intro h0
    apply hy
    have hdvd : vdf.modulus ∣ vdf.base ^ (2 ^ vdf.iterations / p) :=
      Nat.dvd_iff_mod_eq_zero.mpr h0
    have hdvd2 : vdf.modulus ∣ vdf.base ^ 2 ^ vdf.iterations :=
      dvd_trans hdvd (pow_dvd_pow _ (Nat.div_le_self _ _))
    exact Nat.dvd_iff_mod_eq_zero.mp hdvd2
  have hcalc : vdf.base ^ (2 ^ vdf.iterations % p) % vdf.modulus *
      ((vdf.base ^ (2 ^ vdf.iterations / p) % vdf.modulus) ^ p % vdf.modulus) %
        vdf.modulus =
      vdf.base ^ 2 ^ vdf.iterations % vdf.modulus := by
    conv_lhs =>
      rw [← Nat.pow_mod, ← pow_mul, ← Nat.mul_mod, ← pow_add, Nat.mod_add_div']
  simp only [verify, fromDigits_toDigits]
  rw [if_neg (by push_neg; exact ⟨hy, hpi0, hyN, hpiN⟩)]
  simp only [hhash]
  exact decide_eq_true hcalc.symm

/-- Witness for C1 (amended) at the integration scenario: `x = 2, N = 257,
T = 4`, challenge prime 5: the hashing succeeds, `y = 2^16 mod 257 = 1 ≠ 0`,
and verification of the proved solution returns `true`. -/
theorem c1_completeness_amended_witness :
    verify ippFive gFive vdfA (prove ippFive gFive vdfA (fun _ => false)) = true :=
  c1_completeness_amended foMin cacheEmpty 1500 2 [2] [1, 1] vdfA ippFive gFive
    (fun _ => false) 5 (by decide) (fun _ => rfl) (by decide) (by decide)

end Rustaxa
